import Mathlib

/-!
Verification development for the hierarchical command dispatcher
(`Command` class): registration, alias bookkeeping, permission
evaluation and recursive dispatch.  JavaScript objects used as string
tables (`subcommands`, `subcommandAliases`, permission json) are
embedded as association lists with unique keys; `obj[k] = undefined`
is modelled as key removal, which is observationally equivalent here
because every read of those tables goes through an indexing lookup
that treats an `undefined` value exactly like an absent key.
-/

namespace FriendlyBot

/-- Lookup of `t[k]` on a JS-object-as-table: first binding wins. -/
def alookup {α : Type} : List (String × α) → String → Option α
  | [], _ => none
  | (k0, v) :: rest, k => if k0 = k then some v else alookup rest k

/-- Assignment `t[k] = v`: overwrite the binding in place, or append. -/
def ainsert {α : Type} : List (String × α) → String → α → List (String × α)
  | [], k, v => [(k, v)]
  | (k0, v0) :: rest, k, v =>
    if k0 = k then (k, v) :: rest else (k0, v0) :: ainsert rest k v

/-- Assignment `t[k] = undefined`: drop the binding for `k`. -/
def aremove {α : Type} : List (String × α) → String → List (String × α)
  | [], _ => []
  | (k0, v0) :: rest, k =>
    if k0 = k then rest else (k0, v0) :: aremove rest k

/-- The keys of a table, in order. -/
def keysOf {α : Type} (t : List (String × α)) : List String :=
  t.map Prod.fst

theorem alookup_eq_none_iff {α : Type} (t : List (String × α)) (k : String) :
    alookup t k = none ↔ k ∉ keysOf t := by
  induction t with
  | nil => simp [alookup, keysOf]
  | cons p rest ih =>
    obtain ⟨k0, v⟩ := p
    by_cases h : k0 = k
    · subst h
      simp [alookup, keysOf]
    · have hk : k ≠ k0 := Ne.symm h
      simp [alookup, keysOf, h, ih, hk]

theorem mem_of_alookup_eq_some {α : Type} {t : List (String × α)} {k : String} {v : α}
    (h : alookup t k = some v) : (k, v) ∈ t := by
  induction t with
  | nil => simp [alookup] at h
  | cons p rest ih =>
    obtain ⟨k0, v0⟩ := p
    simp only [alookup] at h
    split at h
    · rename_i heq
      obtain rfl : v0 = v := Option.some.inj h
      subst heq
      exact List.mem_cons_self _ _
    · exact List.mem_cons_of_mem _ (ih h)

theorem alookup_isSome_iff {α : Type} (t : List (String × α)) (k : String) :
    (alookup t k).isSome = true ↔ k ∈ keysOf t := by
  rcases h : alookup t k with _ | v
  · rw [alookup_eq_none_iff] at h
    simp [h]
  · have hm : k ∈ keysOf t :=
      List.mem_map.mpr ⟨(k, v), mem_of_alookup_eq_some h, rfl⟩
    simp [hm]

theorem alookup_eq_some_of_mem {α : Type} {t : List (String × α)} {k : String} {v : α}
    (hn : (keysOf t).Nodup) (h : (k, v) ∈ t) : alookup t k = some v := by
  induction t with
  | nil => simp at h
  | cons p rest ih =>
    obtain ⟨k0, v0⟩ := p
    simp only [keysOf, List.map_cons, List.nodup_cons] at hn
    rcases List.mem_cons.mp h with h1 | h1
    · rw [show k0 = k from congrArg Prod.fst h1.symm]
      rw [show v0 = v from congrArg Prod.snd h1.symm]
      simp [alookup]
    · have hk : k0 ≠ k := by
        rintro rfl
        exact hn.1 (List.mem_map.mpr ⟨(k0, v), h1, rfl⟩)
      simp only [alookup, if_neg hk]
      exact ih hn.2 h1

theorem alookup_ainsert_self {α : Type} (t : List (String × α)) (k : String) (v : α) :
    alookup (ainsert t k v) k = some v := by
  induction t with
  | nil => simp [ainsert, alookup]
  | cons p rest ih =>
    obtain ⟨k0, v0⟩ := p
    by_cases h : k0 = k
    · simp [ainsert, alookup, h]
    · simp [ainsert, alookup, h, ih]

theorem alookup_ainsert_ne {α : Type} (t : List (String × α)) (k : String) (v : α)
    {k1 : String} (h : k1 ≠ k) : alookup (ainsert t k v) k1 = alookup t k1 := by
  have hk : k ≠ k1 := Ne.symm h
  induction t with
  | nil => simp [ainsert, alookup, hk]
  | cons p rest ih =>
    obtain ⟨k0, v0⟩ := p
    by_cases h0 : k0 = k
    · subst h0
      simp [ainsert, alookup, hk]
    · by_cases h1 : k0 = k1
      · subst h1
        simp [ainsert, alookup, h0]
      · simp [ainsert, alookup, h0, h1, ih]

theorem ainsert_of_alookup_none {α : Type} {t : List (String × α)} {k : String}
    (h : alookup t k = none) (v : α) : ainsert t k v = t ++ [(k, v)] := by
  induction t with
  | nil => simp [ainsert]
  | cons p rest ih =>
    obtain ⟨k0, v0⟩ := p
    by_cases h0 : k0 = k
    · simp [alookup, h0] at h
    · simp only [alookup, if_neg h0] at h
      simp [ainsert, h0, ih h]

theorem keysOf_ainsert_of_mem {α : Type} {t : List (String × α)} {k : String}
    (h : k ∈ keysOf t) (v : α) : keysOf (ainsert t k v) = keysOf t := by
  induction t with
  | nil => simp [keysOf] at h
  | cons p rest ih =>
    obtain ⟨k0, v0⟩ := p
    by_cases h0 : k0 = k
    · subst h0
      simp [ainsert, keysOf]
    · have h1 : k ∈ keysOf rest := by
        simp only [keysOf, List.map_cons, List.mem_cons] at h
        rcases h with h | h
        · exact absurd h.symm h0
        · exact h
      simp only [ainsert, if_neg h0]
      show k0 :: keysOf (ainsert rest k v) = k0 :: keysOf rest
      exact congrArg _ (ih h1)

theorem alookup_aremove_ne {α : Type} (t : List (String × α)) (k : String)
    {k1 : String} (h : k1 ≠ k) : alookup (aremove t k) k1 = alookup t k1 := by
  have hk : k ≠ k1 := Ne.symm h
  induction t with
  | nil => simp [aremove]
  | cons p rest ih =>
    obtain ⟨k0, v0⟩ := p
    by_cases h0 : k0 = k
    · subst h0
      simp [aremove, alookup, hk]
    · by_cases h1 : k0 = k1
      · subst h1
        simp [aremove, alookup, h0]
      · simp [aremove, alookup, h0, h1, ih]

theorem alookup_aremove_self {α : Type} {t : List (String × α)} {k : String}
    (hn : (keysOf t).Nodup) : alookup (aremove t k) k = none := by
  induction t with
  | nil => simp [aremove, alookup]
  | cons p rest ih =>
    obtain ⟨k0, v0⟩ := p
    simp only [keysOf, List.map_cons, List.nodup_cons] at hn
    by_cases h0 : k0 = k
    · subst h0
      simp only [aremove, if_pos rfl]
      rw [alookup_eq_none_iff]
      exact hn.1
    · simp only [aremove, if_neg h0, alookup, if_neg h0]
      exact ih hn.2

theorem aremove_of_alookup_none {α : Type} {t : List (String × α)} {k : String}
    (h : alookup t k = none) : aremove t k = t := by
  induction t with
  | nil => simp [aremove]
  | cons p rest ih =>
    obtain ⟨k0, v0⟩ := p
    by_cases h0 : k0 = k
    · simp [alookup, h0] at h
    · simp only [alookup, if_neg h0] at h
      simp [aremove, h0, ih h]

theorem mem_ainsert {α : Type} {t : List (String × α)} {k : String} {v : α}
    {p : String × α} (h : p ∈ ainsert t k v) : p = (k, v) ∨ p ∈ t := by
  induction t with
  | nil => simpa [ainsert] using h
  | cons q rest ih =>
    obtain ⟨k0, v0⟩ := q
    by_cases h0 : k0 = k
    · simp only [ainsert, if_pos h0, List.mem_cons] at h
      rcases h with h | h
      · exact Or.inl h
      · exact Or.inr (List.mem_cons_of_mem _ h)
    · simp only [ainsert, if_neg h0, List.mem_cons] at h
      rcases h with h | h
      · exact Or.inr (List.mem_cons.mpr (Or.inl h))
      · rcases ih h with h1 | h1
        · exact Or.inl h1
        · exact Or.inr (List.mem_cons_of_mem _ h1)

theorem mem_aremove {α : Type} {t : List (String × α)} {k : String}
    {p : String × α} (h : p ∈ aremove t k) : p ∈ t := by
  induction t with
  | nil => simp [aremove] at h
  | cons q rest ih =>
    obtain ⟨k0, v0⟩ := q
    by_cases h0 : k0 = k
    · simp only [aremove, if_pos h0] at h
      exact List.mem_cons_of_mem _ h
    · simp only [aremove, if_neg h0, List.mem_cons] at h
      rcases h with h | h
      · exact List.mem_cons.mpr (Or.inl h)
      · exact List.mem_cons_of_mem _ (ih h)

theorem keysOf_aremove_subset {α : Type} {t : List (String × α)} {k x : String}
    (h : x ∈ keysOf (aremove t k)) : x ∈ keysOf t := by
  simp only [keysOf, List.mem_map] at h ⊢
  obtain ⟨p, hp, hx⟩ := h
  exact ⟨p, mem_aremove hp, hx⟩

theorem nodup_keysOf_aremove {α : Type} {t : List (String × α)} (k : String)
    (hn : (keysOf t).Nodup) : (keysOf (aremove t k)).Nodup := by
  induction t with
  | nil => simp [aremove, keysOf]
  | cons p rest ih =>
    obtain ⟨k0, v0⟩ := p
    simp only [keysOf, List.map_cons, List.nodup_cons] at hn
    by_cases h0 : k0 = k
    · simp only [aremove, if_pos h0]
      exact hn.2
    · simp only [aremove, if_neg h0]
      show (k0 :: keysOf (aremove rest k)).Nodup
      rw [List.nodup_cons]
      exact ⟨fun hmem => hn.1 (keysOf_aremove_subset hmem), ih hn.2⟩

theorem alookup_append_left {α : Type} {t : List (String × α)} {k : String} {v : α}
    (h : alookup t k = some v) (s : List (String × α)) :
    alookup (t ++ s) k = some v := by
  induction t with
  | nil => simp [alookup] at h
  | cons p rest ih =>
    obtain ⟨k0, v0⟩ := p
    by_cases h0 : k0 = k
    · simp only [alookup, if_pos h0] at h
      simp [alookup, h0, h]
    · simp only [alookup, if_neg h0] at h
      simp only [List.cons_append, alookup, if_neg h0]
      exact ih h

theorem alookup_append_right {α : Type} {t : List (String × α)} {k : String}
    (h : alookup t k = none) (s : List (String × α)) :
    alookup (t ++ s) k = alookup s k := by
  induction t with
  | nil => simp
  | cons p rest ih =>
    obtain ⟨k0, v0⟩ := p
    by_cases h0 : k0 = k
    · simp [alookup, h0] at h
    · simp only [alookup, if_neg h0] at h
      simp only [List.cons_append, alookup, if_neg h0]
      exact ih h

theorem keysOf_append {α : Type} (t s : List (String × α)) :
    keysOf (t ++ s) = keysOf t ++ keysOf s := by
  simp [keysOf]

/-- JS `s.includes(" ")`, phrased over the string's characters. -/
def hasSpace (s : String) : Bool :=
  s.data.contains ' '

/-- JS `s.toLowerCase()`, phrased over the string's characters. -/
def lowerStr (s : String) : String :=
  ⟨s.data.map Char.toLower⟩

/-- JS string falsiness: only the empty string is falsy. -/
def strEmpty (s : String) : Bool :=
  s.data.isEmpty

/-- JS `x || d` for a possibly-undefined string value: both `undefined`
and the empty string are falsy and fall back to the default. -/
def jsOrStr (o : Option String) (d : String) : String :=
  match o with
  | some s => if strEmpty s then d else s
  | none => d

/-- JS truthiness of a possibly-undefined string value. -/
def truthy (o : Option String) : Bool :=
  match o with
  | some s => !strEmpty s
  | none => false

/-- Remove the first occurrence of `a` from the list. -/
def removeFirst : List String → String → List String
  | [], _ => []
  | x :: xs, a => if x = a then xs else x :: removeFirst xs a

/-- JS `list.splice(list.indexOf(a), 1)`: removes the first occurrence
of `a` when present; when `a` is absent, `indexOf` yields `-1` and
`splice(-1, 1)` removes the last element instead. -/
def spliceRemove (l : List String) (a : String) : List String :=
  if l.contains a then removeFirst l a else l.dropLast

theorem mem_removeFirst {l : List String} {a b : String}
    (h : b ∈ removeFirst l a) : b ∈ l := by
  induction l with
  | nil => simp [removeFirst] at h
  | cons x xs ih =>
    by_cases hx : x = a
    · simp only [removeFirst, if_pos hx] at h
      exact List.mem_cons_of_mem _ h
    · simp only [removeFirst, if_neg hx, List.mem_cons] at h
      rcases h with h | h
      · exact List.mem_cons.mpr (Or.inl h)
      · exact List.mem_cons_of_mem _ (ih h)

theorem mem_removeFirst_of_ne {l : List String} {a b : String}
    (hne : b ≠ a) (h : b ∈ l) : b ∈ removeFirst l a := by
  induction l with
  | nil => simp at h
  | cons x xs ih =>
    by_cases hx : x = a
    · simp only [removeFirst, if_pos hx]
      rcases List.mem_cons.mp h with h1 | h1
      · exact absurd (h1.trans hx) hne
      · exact h1
    · simp only [removeFirst, if_neg hx, List.mem_cons]
      rcases List.mem_cons.mp h with h1 | h1
      · exact Or.inl h1
      · exact Or.inr (ih h1)

theorem not_mem_removeFirst_self {l : List String} {a : String}
    (hn : l.Nodup) : a ∉ removeFirst l a := by
  induction l with
  | nil => simp [removeFirst]
  | cons x xs ih =>
    rw [List.nodup_cons] at hn
    by_cases hx : x = a
    · simp only [removeFirst, if_pos hx]
      rw [← hx]
      exact hn.1
    · simp only [removeFirst, if_neg hx, List.mem_cons]
      rintro (h | h)
      · exact hx h.symm
      · exact ih hn.2 h

theorem nodup_removeFirst {l : List String} (a : String)
    (hn : l.Nodup) : (removeFirst l a).Nodup := by
  induction l with
  | nil => simp [removeFirst]
  | cons x xs ih =>
    rw [List.nodup_cons] at hn
    by_cases hx : x = a
    · simp only [removeFirst, if_pos hx]
      exact hn.2
    · simp only [removeFirst, if_neg hx]
      rw [List.nodup_cons]
      exact ⟨fun hmem => hn.1 (mem_removeFirst hmem), ih hn.2⟩

theorem spliceRemove_of_mem {l : List String} {a : String}
    (h : a ∈ l) : spliceRemove l a = removeFirst l a := by
  simp [spliceRemove, h]

/-- A guild (group scope), as the chat layer exposes it to the core:
`members.get(id).roles` and `roles.get(roleID).name`. -/
structure Guild where
  memberRoles : String → List String
  roleName : String → String

/-- A channel.  `guild` is absent on a direct-message channel;
`permissionsOf(userID).json` is the computed capability-flag object
for that user, where a key read yields a boolean or `undefined`. -/
structure Channel where
  guild : Option Guild
  permissionsOf : String → List (String × Bool)

/-- The invoking user. -/
structure Author where
  id : String

/-- The message handed to the dispatcher: the actor plus its context. -/
structure Msg where
  author : Author
  channel : Channel

/-- A JS value passed as the `generator` constructor argument: a
string, an array of values, a function `(msg, args)` returning a
string or a falsy value, or anything else. -/
inductive GenVal where
  | str (s : String)
  | arr (items : List GenVal)
  | fn (f : Msg → List String → Option String)
  | other

/-- `this.requirements` after the constructor has filled in defaults. -/
structure Requirements where
  userIDs : List String
  permissions : List (String × Bool)
  roleIDs : List String
  roleNames : List String

/-- The `options.requirements` object as passed in; fields may be absent. -/
structure ReqOptions where
  userIDs : Option (List String)
  permissions : Option (List (String × Bool))
  roleIDs : Option (List String)
  roleNames : Option (List String)

/-- The `options` object as passed in. -/
structure Options where
  description : Option String
  fullDescription : Option String
  usage : Option String
  aliases : Option (List String)
  caseInsensitive : Bool
  requirements : Option ReqOptions
  deleteCommand : Bool
  serverOnly : Bool

/-- The empty options object `{}`. -/
def emptyOptions : Options :=
  ⟨none, none, none, none, false, none, false, false⟩

/-- A `Command` node.  `execute` is the response-generator closure the
constructor installs; `subcommands` and `subcommandAliases` are the two
child tables. -/
inductive Cmd where
  | mk (label : String)
       (description : String)
       (fullDescription : String)
       (usage : String)
       (aliases : List String)
       (caseInsensitive : Bool)
       (requirements : Requirements)
       (deleteCommand : Bool)
       (serverOnly : Bool)
       (execute : Msg → List String → Option String)
       (subcommands : List (String × Cmd))
       (subcommandAliases : List (String × String))

def Cmd.label : Cmd → String
  | .mk x _ _ _ _ _ _ _ _ _ _ _ => x

def Cmd.description : Cmd → String
  | .mk _ x _ _ _ _ _ _ _ _ _ _ => x

def Cmd.fullDescription : Cmd → String
  | .mk _ _ x _ _ _ _ _ _ _ _ _ => x

def Cmd.usage : Cmd → String
  | .mk _ _ _ x _ _ _ _ _ _ _ _ => x

def Cmd.aliases : Cmd → List String
  | .mk _ _ _ _ x _ _ _ _ _ _ _ => x

def Cmd.caseInsensitive : Cmd → Bool
  | .mk _ _ _ _ _ x _ _ _ _ _ _ => x

def Cmd.requirements : Cmd → Requirements
  | .mk _ _ _ _ _ _ x _ _ _ _ _ => x

def Cmd.deleteCommand : Cmd → Bool
  | .mk _ _ _ _ _ _ _ x _ _ _ _ => x

def Cmd.serverOnly : Cmd → Bool
  | .mk _ _ _ _ _ _ _ _ x _ _ _ => x

def Cmd.execute : Cmd → Msg → List String → Option String
  | .mk _ _ _ _ _ _ _ _ _ x _ _ => x

def Cmd.subcommands : Cmd → List (String × Cmd)
  | .mk _ _ _ _ _ _ _ _ _ _ x _ => x

def Cmd.subcommandAliases : Cmd → List (String × String)
  | .mk _ _ _ _ _ _ _ _ _ _ _ x => x

/-- Replace the two child tables of a node (in-place JS mutation of
`this.subcommands` / `this.subcommandAliases`). -/
def Cmd.withTables : Cmd → List (String × Cmd) → List (String × String) → Cmd
  | .mk l d fd u al ci rq dc so ex _ _, subs, als =>
    .mk l d fd u al ci rq dc so ex subs als

/-- Replace the `aliases` list of a node (in-place JS mutation). -/
def Cmd.withAliases : Cmd → List String → Cmd
  | .mk l d fd u _ ci rq dc so ex subs als, as =>
    .mk l d fd u as ci rq dc so ex subs als

@[simp] theorem Cmd.subcommands_withTables (c : Cmd) (s : List (String × Cmd))
    (t : List (String × String)) : (c.withTables s t).subcommands = s := by
  cases c; rfl

@[simp] theorem Cmd.subcommandAliases_withTables (c : Cmd) (s : List (String × Cmd))
    (t : List (String × String)) : (c.withTables s t).subcommandAliases = t := by
  cases c; rfl

@[simp] theorem Cmd.aliases_withTables (c : Cmd) (s : List (String × Cmd))
    (t : List (String × String)) : (c.withTables s t).aliases = c.aliases := by
  cases c; rfl

@[simp] theorem Cmd.caseInsensitive_withTables (c : Cmd) (s : List (String × Cmd))
    (t : List (String × String)) : (c.withTables s t).caseInsensitive = c.caseInsensitive := by
  cases c; rfl

@[simp] theorem Cmd.aliases_withAliases (c : Cmd) (as : List String) :
    (c.withAliases as).aliases = as := by
  cases c; rfl

@[simp] theorem Cmd.subcommands_withAliases (c : Cmd) (as : List String) :
    (c.withAliases as).subcommands = c.subcommands := by
  cases c; rfl

@[simp] theorem Cmd.subcommandAliases_withAliases (c : Cmd) (as : List String) :
    (c.withAliases as).subcommandAliases = c.subcommandAliases := by
  cases c; rfl

@[simp] theorem Cmd.caseInsensitive_withAliases (c : Cmd) (as : List String) :
    (c.withAliases as).caseInsensitive = c.caseInsensitive := by
  cases c; rfl

/-- Fill `this.requirements` from `options.requirements || {}`: each
absent field becomes an empty container (source lines 42-54). -/
def mkRequirements (o : Option ReqOptions) : Requirements :=
  let r := o.getD ⟨none, none, none, none⟩
  ⟨r.userIDs.getD [], r.permissions.getD [], r.roleIDs.getD [], r.roleNames.getD []⟩

/-- The `generator.map((item, index) => ...)` loop of the constructor
(source lines 61-69), translated faithfully: the callback tests
`typeof generator` — the whole generator value, which in this branch is
always the array itself — instead of `typeof item`, so every iteration
takes the `throw` branch. -/
def mkResponses (generator : GenVal) :
    List GenVal → Nat → Except String (List (Msg → List String → Option String))
  | [], _ => .ok []
  | _item :: rest, index =>
    match generator with
    | .str s =>
      match mkResponses generator rest (index + 1) with
      | .ok fs => .ok ((fun _ _ => some s) :: fs)
      | .error e => .error e
    | .fn f =>
      match mkResponses generator rest (index + 1) with
      | .ok fs => .ok (f :: fs)
      | .error e => .error e
    | _ => .error ("Invalid command response generator (index " ++ toString index ++ ")")

/-- Installation of `this.execute` from the generator argument
(source lines 57-75). -/
def mkExecute (generator : GenVal) :
    Except String (Msg → List String → Option String) :=
  match generator with
  | .str s => .ok (fun _ _ => some s)
  | .arr items =>
    match mkResponses (.arr items) items 0 with
    | .error e => .error e
    | .ok _responses =>
      -- Reachable only with an empty array (any item makes the map
      -- callback throw); `this.responses[Math.floor(Math.random()*0)]`
      -- is then `undefined`, i.e. no response.
      .ok (fun _ _ => none)
  | .fn f => .ok f
  | .other => .error ("Invalid command response generator")

/-- The `Command` constructor (source lines 35-79): the node, or the
message of the `Error` the constructor throws. -/
def mkCommand (label : String) (generator : GenVal) (options : Options) :
    Except String Cmd :=
  match mkExecute generator with
  | .error e => .error e
  | .ok ex =>
    .ok (Cmd.mk label
      (jsOrStr options.description ("No description"))
      (jsOrStr options.fullDescription ("No full description"))
      (jsOrStr options.usage (""))
      (options.aliases.getD [])
      options.caseInsensitive
      (mkRequirements options.requirements)
      options.deleteCommand
      options.serverOnly
      ex [] [])

/-- Source lines 113-121: resolve the member's role IDs to names and
permit exactly when one is in the `roleNames` requirement. -/
def roleNamesCheck (c : Cmd) (guild : Guild) (roles : List String) : Bool :=
  let roleNames := roles.map guild.roleName
  c.requirements.roleNames.any (fun rn => roleNames.contains rn)

/-- `Command.permissionCheck(msg)` (source lines 81-123), translated
branch by branch in source order. -/
def permissionCheck (c : Cmd) (msg : Msg) : Bool :=
  -- lines 82-84: a non-empty userID allow-list missing the author denies
  if c.requirements.userIDs.length > 0 &&
      !(c.requirements.userIDs.contains msg.author.id) then
    false
  else
    match msg.channel.guild with
    -- lines 85-87: direct-message channel
    | none => !c.serverOnly && c.requirements.userIDs.length == 0
    | some guild =>
      -- lines 88-101: if every configured capability pair matches the
      -- computed flags exactly, permit immediately
      let permissions := msg.channel.permissionsOf msg.author.id
      if c.requirements.permissions.length > 0 &&
          c.requirements.permissions.all
            (fun kv => alookup permissions kv.1 == some kv.2) then
        true
      else
        -- line 102
        let roles := guild.memberRoles msg.author.id
        -- lines 103-112
        if c.requirements.roleIDs.length > 0 then
          if c.requirements.roleIDs.any (fun rid => roles.contains rid) then
            true
          else if c.requirements.roleNames.length == 0 then
            false
          else
            roleNamesCheck c guild roles
        -- lines 113-121
        else if c.requirements.roleNames.length > 0 then
          roleNamesCheck c guild roles
        else
          -- line 122
          true

/-- Resolution of the first token against the child tables (source
lines 132-134): alias indirection first (a falsy alias value falls back
to the raw token), then an exact label lookup, then a lowercased lookup
honored only when the found child has `caseInsensitive` set. -/
def resolveChild (c : Cmd) (tok : String) : Option Cmd :=
  let label := jsOrStr (alookup c.subcommandAliases tok) tok
  match alookup c.subcommands label with
  | some sub => some sub
  | none =>
    match alookup c.subcommands (lowerStr label) with
    | some sub => if sub.caseInsensitive then some sub else none
    | none => none

/-- `Command.process(args, msg)` (source lines 125-139). -/
def process (c : Cmd) (args : List String) (msg : Msg) : Option String :=
  if permissionCheck c msg = false then
    none
  else
    match args with
    | [] => c.execute msg []
    | a0 :: rest =>
      match resolveChild c a0 with
      | some sub => process sub rest msg
      | none => c.execute msg (a0 :: rest)

/-- The chain of nodes `process` walks while resolving tokens, starting
at the current node; the last entry is the node whose generator would
run. -/
def pathNodes (c : Cmd) (args : List String) : List Cmd :=
  match args with
  | [] => [c]
  | a0 :: rest =>
    match resolveChild c a0 with
    | some sub => c :: pathNodes sub rest
    | none => [c]

/-- `Command.registerSubcommandAlias(alias, label)` (source lines
146-155): the updated parent, or the thrown message. -/
def registerSubcommandAlias (c : Cmd) (al : String) (label : String) :
    Except String Cmd :=
  match alookup c.subcommands label with
  | none => .error ("No subcommand registered for " ++ label)
  | some sub =>
    if truthy (alookup c.subcommandAliases al) then
      .error ("Alias " ++ label ++ " already registered")
    else
      .ok (c.withTables
        (ainsert c.subcommands label (sub.withAliases (sub.aliases ++ [al])))
        (ainsert c.subcommandAliases al label))

/-- `Command.registerSubcommand(label, generator, options)` (source
lines 184-199): the updated parent, or the thrown message.  The space
check inspects only the literal space character; the duplicate check
precedes any table write. -/
def registerSubcommand (c : Cmd) (label : String) (generator : GenVal)
    (optionsIn : Option Options) : Except String Cmd :=
  if hasSpace label then
    .error ("Subcommand label may not have spaces")
  else if (alookup c.subcommands label).isSome then
    .error ("You have already registered a subcommand for " ++ label)
  else
    -- `options = options || {}` from line 191 is inlined below
    match mkCommand label generator (optionsIn.getD emptyOptions) with
    | .error e => .error e
    | .ok child =>
      .ok (c.withTables
        (ainsert c.subcommands label child)
        ((((optionsIn.getD emptyOptions).aliases).getD []).foldl
          (fun t a => ainsert t a label) c.subcommandAliases))

/-- `Command.unregisterSubcommand(label)` (source lines 205-213).  When
the label is a truthy alias entry, the alias is spliced out of the
child's list and cleared from the table — a property access on
`this.subcommands[original]` that crashes when that child is gone.
Otherwise the `subcommands` entry itself is cleared. -/
def unregisterSubcommand (c : Cmd) (label : String) : Except String Cmd :=
  match alookup c.subcommandAliases label with
  | some original =>
    if strEmpty original then
      -- a falsy (empty-string) alias value takes the else branch
      .ok (c.withTables (aremove c.subcommands label) c.subcommandAliases)
    else
      match alookup c.subcommands original with
      | none => .error ("TypeError: cannot read property aliases of undefined")
      | some sub =>
        .ok (c.withTables
          (ainsert c.subcommands original
            (sub.withAliases (spliceRemove sub.aliases label)))
          (aremove c.subcommandAliases label))
  | none => .ok (c.withTables (aremove c.subcommands label) c.subcommandAliases)

/-- Placeholder node, used only to destructure `Except` results on
paths separately proven unreachable. -/
def defaultCmd : Cmd :=
  Cmd.mk ("") ("") ("") ("") [] false ⟨[], [], [], []⟩ false false
    (fun _ _ => none) [] []

/-- One administrative operation on a parent node. -/
inductive Op where
  | register (label : String) (generator : GenVal) (options : Option Options)
  | registerAlias (al : String) (label : String)
  | unregister (label : String)

/-- Apply one operation; a thrown registration error leaves the node
unchanged, since every throw in the source happens before any table
write. -/
def applyOp (c : Cmd) : Op → Cmd
  | .register label g opts =>
    match registerSubcommand c label g opts with
    | .ok c1 => c1
    | .error _ => c
  | .registerAlias al label =>
    match registerSubcommandAlias c al label with
    | .ok c1 => c1
    | .error _ => c
  | .unregister label =>
    match unregisterSubcommand c label with
    | .ok c1 => c1
    | .error _ => c

/-- Run a sequence of administrative operations left to right. -/
def runOps (c : Cmd) : List Op → Cmd
  | [] => c
  | op :: rest => runOps (applyOp c op) rest

/-- Duplicate-freedom of a list of strings, computably. -/
def nodupB : List String → Bool
  | [] => true
  | x :: xs => !(xs.contains x) && nodupB xs

/-- No string is simultaneously an alias key and a canonical child key. -/
def atMostOneB (c : Cmd) : Bool :=
  c.subcommandAliases.all (fun p => (alookup c.subcommands p.1).isNone)

/-- One alias entry points at an existing child that lists the alias. -/
def aliasEntryOk (c : Cmd) (p : String × String) : Bool :=
  match alookup c.subcommands p.2 with
  | some sub => (Cmd.aliases sub).contains p.1
  | none => false

/-- Every alias entry points at an existing child that lists the alias. -/
def aliasToChildB (c : Cmd) : Bool :=
  c.subcommandAliases.all (fun p => aliasEntryOk c p)

/-- Every alias a child lists appears in the parent's table, pointing
back at that child's label. -/
def childToAliasB (c : Cmd) : Bool :=
  c.subcommands.all (fun q =>
    (Cmd.aliases q.2).all (fun a => alookup c.subcommandAliases a == some q.1))

/-- The invariant of the specification: within one parent a label or
alias resolves to at most one child, and the parent's alias table
agrees exactly with each child's own alias list. -/
def claimInvB (c : Cmd) : Bool :=
  atMostOneB c && aliasToChildB c && childToAliasB c

/-- Bookkeeping wellformedness: both tables have duplicate-free keys
and each child's alias list is duplicate-free. -/
def nodupsB (c : Cmd) : Bool :=
  nodupB (keysOf c.subcommands) && nodupB (keysOf c.subcommandAliases) &&
  c.subcommands.all (fun q => nodupB (Cmd.aliases q.2))

/-- The full preserved invariant. -/
def invB (c : Cmd) : Bool :=
  claimInvB c && nodupsB c

/-- Freshness side conditions under which an operation keeps the alias
bookkeeping consistent. -/
def okOp (c : Cmd) : Op → Bool
  | .register label _ opts =>
    let as := ((opts.getD emptyOptions).aliases).getD []
    nodupB (label :: as) &&
    (label :: as).all (fun a =>
      (alookup c.subcommandAliases a).isNone && (alookup c.subcommands a).isNone)
  | .registerAlias al _ =>
    (alookup c.subcommandAliases al).isNone && (alookup c.subcommands al).isNone
  | .unregister label =>
    match alookup c.subcommandAliases label with
    | some _ => true
    | none =>
      match alookup c.subcommands label with
      | some sub => (Cmd.aliases sub).isEmpty
      | none => true

/-- `okOp` holding at every step along a run. -/
def okSeq (c : Cmd) : List Op → Bool
  | [] => true
  | op :: rest => okOp c op && okSeq (applyOp c op) rest

/-- Every canonical child label is free of spaces — this holds on every
reachable tree because `registerSubcommand` is the only way keys enter
`subcommands` and it rejects labels containing a space. -/
def labelsOk (c : Cmd) : Bool :=
  c.subcommands.all (fun q => !hasSpace q.1)

/-- `atMostOneB`, quantified through lookups. -/
def AtMostOne (c : Cmd) : Prop :=
  ∀ a l, alookup c.subcommandAliases a = some l →
    alookup c.subcommands a = none

/-- `aliasToChildB`, quantified through lookups. -/
def AliasToChild (c : Cmd) : Prop :=
  ∀ a l, alookup c.subcommandAliases a = some l →
    ∃ sub, alookup c.subcommands l = some sub ∧ a ∈ Cmd.aliases sub

/-- `childToAliasB`, quantified through lookups. -/
def ChildToAlias (c : Cmd) : Prop :=
  ∀ l sub, alookup c.subcommands l = some sub →
    ∀ a ∈ Cmd.aliases sub, alookup c.subcommandAliases a = some l

/-- `nodupsB`, quantified through lookups. -/
def Nodups (c : Cmd) : Prop :=
  (keysOf c.subcommands).Nodup ∧ (keysOf c.subcommandAliases).Nodup ∧
  ∀ l sub, alookup c.subcommands l = some sub → (Cmd.aliases sub).Nodup

/-- The full invariant, in proof-friendly form. -/
def InvP (c : Cmd) : Prop :=
  AtMostOne c ∧ AliasToChild c ∧ ChildToAlias c ∧ Nodups c

theorem nodupB_iff (l : List String) : nodupB l = true ↔ l.Nodup := by
  induction l with
  | nil => simp [nodupB]
  | cons x xs ih =>
    simp [nodupB, ih, List.nodup_cons]

theorem invB_iff (c : Cmd) : invB c = true ↔ InvP c := by
  constructor
  · intro h
    simp only [invB, claimInvB, nodupsB, atMostOneB, aliasToChildB, childToAliasB,
      Bool.and_eq_true, List.all_eq_true] at h
    obtain ⟨⟨⟨h1, h2⟩, h3⟩, ⟨hk1, hk2⟩, h4⟩ := h
    rw [nodupB_iff] at hk1 hk2
    refine ⟨?_, ?_, ?_, hk1, hk2, ?_⟩
    · intro a l hal
      have h5 := h1 (a, l) (mem_of_alookup_eq_some hal)
      simpa using h5
    · intro a l hal
      have h5 := h2 (a, l) (mem_of_alookup_eq_some hal)
      unfold aliasEntryOk at h5
      cases hsub : alookup c.subcommands l with
      | none =>
        rw [hsub] at h5
        cases h5
      | some sub =>
        rw [hsub] at h5
        exact ⟨sub, rfl, by simpa using h5⟩
    · intro l sub hsub a ha
      have h5 := h3 (l, sub) (mem_of_alookup_eq_some hsub) a ha
      rwa [beq_iff_eq] at h5
    · intro l sub hsub
      exact (nodupB_iff _).mp (h4 (l, sub) (mem_of_alookup_eq_some hsub))
  · rintro ⟨h1, h2, h3, hk1, hk2, h4⟩
    simp only [invB, claimInvB, nodupsB, atMostOneB, aliasToChildB, childToAliasB,
      Bool.and_eq_true, List.all_eq_true]
    refine ⟨⟨⟨?_, ?_⟩, ?_⟩, ⟨(nodupB_iff _).mpr hk1, (nodupB_iff _).mpr hk2⟩, ?_⟩
    · rintro ⟨a, l⟩ hmem
      have hal : alookup c.subcommandAliases a = some l :=
        alookup_eq_some_of_mem hk2 hmem
      simp [h1 a l hal]
    · rintro ⟨a, l⟩ hmem
      have hal := alookup_eq_some_of_mem hk2 hmem
      obtain ⟨sub, hsub, hmem2⟩ := h2 a l hal
      unfold aliasEntryOk
      rw [hsub]
      simpa using hmem2
    · rintro ⟨l, sub⟩ hmem
      intro a ha
      rw [beq_iff_eq]
      exact h3 l sub (alookup_eq_some_of_mem hk1 hmem) a ha
    · rintro ⟨l, sub⟩ hmem
      exact (nodupB_iff _).mpr (h4 l sub (alookup_eq_some_of_mem hk1 hmem))

theorem alookup_selfmap (as : List String) (label : String) (k : String) :
    alookup (as.map (fun a => (a, label))) k =
      if k ∈ as then some label else none := by
  induction as with
  | nil => simp [alookup]
  | cons a rest ih =>
    by_cases h : a = k
    · subst h
      simp [alookup]
    · have hk : k ≠ a := Ne.symm h
      simp [alookup, h, ih, hk]

theorem foldl_ainsert_fresh (label : String) (as : List String) :
    ∀ (t : List (String × String)),
      (∀ a ∈ as, alookup t a = none) → as.Nodup →
      as.foldl (fun t1 a => ainsert t1 a label) t =
        t ++ as.map (fun a => (a, label)) := by
  induction as with
  | nil => intro t _ _; simp
  | cons a rest ih =>
    intro t hfresh hnd
    rw [List.nodup_cons] at hnd
    have ha : alookup t a = none := hfresh a (List.mem_cons_self _ _)
    have hstep : ainsert t a label = t ++ [(a, label)] :=
      ainsert_of_alookup_none ha label
    have hfresh2 : ∀ b ∈ rest, alookup (t ++ [(a, label)]) b = none := by
      intro b hb
      have hba : a ≠ b := by
        rintro rfl
        exact hnd.1 hb
      rw [alookup_append_right (hfresh b (List.mem_cons_of_mem _ hb))]
      simp [alookup, hba]
    calc (a :: rest).foldl (fun t1 x => ainsert t1 x label) t
        = rest.foldl (fun t1 x => ainsert t1 x label) (t ++ [(a, label)]) := by
          rw [List.foldl_cons, hstep]
      _ = (t ++ [(a, label)]) ++ rest.map (fun x => (x, label)) := ih _ hfresh2 hnd.2
      _ = t ++ (a :: rest).map (fun x => (x, label)) := by simp

theorem keysOf_selfmap (as : List String) (label : String) :
    keysOf (as.map (fun a => (a, label))) = as := by
  induction as with
  | nil => rfl
  | cons a rest ih =>
    show a :: keysOf (rest.map (fun a => (a, label))) = a :: rest
    rw [ih]

theorem nodup_append_of_disjoint {l1 l2 : List String} (h1 : l1.Nodup)
    (h2 : l2.Nodup) (hd : ∀ x ∈ l2, x ∉ l1) : (l1 ++ l2).Nodup := by
  rw [List.nodup_append]
  exact ⟨h1, h2, fun x hx hx2 => hd x hx2 hx⟩

theorem mkCommand_ok_aliases {label : String} {g : GenVal} {options : Options}
    {child : Cmd} (h : mkCommand label g options = .ok child) :
    Cmd.aliases child = options.aliases.getD [] := by
  unfold mkCommand at h
  cases hex : mkExecute g with
  | error e =>
    rw [hex] at h
    cases h
  | ok ex =>
    rw [hex] at h
    injection h with h1
    subst h1
    rfl

theorem registerSubcommand_ok_shape {c : Cmd} {label : String} {g : GenVal}
    {optsIn : Option Options} {c1 : Cmd}
    (h : registerSubcommand c label g optsIn = .ok c1) :
    hasSpace label = false ∧ alookup c.subcommands label = none ∧
    ∃ child, mkCommand label g (optsIn.getD emptyOptions) = .ok child ∧
      c1 = c.withTables (ainsert c.subcommands label child)
        ((((optsIn.getD emptyOptions).aliases).getD []).foldl
          (fun t a => ainsert t a label) c.subcommandAliases) := by
  unfold registerSubcommand at h
  split at h
  · cases h
  · rename_i hspace
    split at h
    · cases h
    · rename_i hdup
      have hnone : alookup c.subcommands label = none := by
        cases hl : alookup c.subcommands label with
        | none => rfl
        | some s =>
          rw [hl] at hdup
          simp at hdup
      refine ⟨by simpa using hspace, hnone, ?_⟩
      cases hmk : mkCommand label g (optsIn.getD emptyOptions) with
      | error e =>
        rw [hmk] at h
        cases h
      | ok child =>
        rw [hmk] at h
        injection h with h1
        exact ⟨child, rfl, h1.symm⟩

theorem invP_register {c : Cmd} {label : String} {g : GenVal}
    {optsIn : Option Options} (hI : InvP c)
    (hok : okOp c (.register label g optsIn) = true) :
    InvP (applyOp c (.register label g optsIn)) := by
  have happ : applyOp c (.register label g optsIn) =
      match registerSubcommand c label g optsIn with
      | .ok c1 => c1
      | .error _ => c := rfl
  rw [happ]
  cases hreg : registerSubcommand c label g optsIn with
  | error e => exact hI
  | ok c1 =>
    obtain ⟨hspace, hnone, child, hmk, rfl⟩ := registerSubcommand_ok_shape hreg
    obtain ⟨hAM, hAC, hCA, hK1, hK2, hK3⟩ := hI
    simp only [okOp, Bool.and_eq_true, List.all_eq_true,
      Option.isNone_iff_eq_none] at hok
    obtain ⟨hnd, hfresh⟩ := hok
    rw [nodupB_iff, List.nodup_cons] at hnd
    set as := (((optsIn.getD emptyOptions).aliases).getD []) with has
    have hchild : Cmd.aliases child = as := mkCommand_ok_aliases hmk
    have hlblA : alookup c.subcommandAliases label = none :=
      (hfresh label (List.mem_cons_self _ _)).1
    have hfreshA : ∀ a ∈ as, alookup c.subcommandAliases a = none :=
      fun a ha => (hfresh a (List.mem_cons_of_mem _ ha)).1
    have hfreshS : ∀ a ∈ as, alookup c.subcommands a = none :=
      fun a ha => (hfresh a (List.mem_cons_of_mem _ ha)).2
    have hsubs : ainsert c.subcommands label child =
        c.subcommands ++ [(label, child)] :=
      ainsert_of_alookup_none hnone child
    have hals : as.foldl (fun t a => ainsert t a label) c.subcommandAliases =
        c.subcommandAliases ++ as.map (fun a => (a, label)) :=
      foldl_ainsert_fresh label as c.subcommandAliases hfreshA hnd.2
    rw [hsubs, hals]
    -- lookups into the two extended tables
    have hlookS : ∀ x, x ≠ label →
        alookup (c.subcommands ++ [(label, child)]) x = alookup c.subcommands x := by
      intro x hx
      cases hS : alookup c.subcommands x with
      | some s => exact alookup_append_left hS _
      | none =>
        rw [alookup_append_right hS]
        simp [alookup, Ne.symm hx]
    have hlookSl : alookup (c.subcommands ++ [(label, child)]) label = some child := by
      rw [alookup_append_right hnone]
      simp [alookup]
    have hlookA : ∀ x l0,
        alookup (c.subcommandAliases ++ as.map (fun a => (a, label))) x = some l0 →
        (alookup c.subcommandAliases x = some l0 ∨ (x ∈ as ∧ l0 = label)) := by
      intro x l0 hx
      cases hA : alookup c.subcommandAliases x with
      | some l1 =>
        rw [alookup_append_left hA] at hx
        exact Or.inl hx
      | none =>
        rw [alookup_append_right hA, alookup_selfmap] at hx
        by_cases hmem : x ∈ as
        · rw [if_pos hmem] at hx
          exact Or.inr ⟨hmem, (Option.some.inj hx).symm⟩
        · rw [if_neg hmem] at hx
          cases hx
    refine ⟨?_, ?_, ?_, ?_, ?_, ?_⟩
    · -- AtMostOne
      intro a l hal
      simp only [Cmd.subcommandAliases_withTables] at hal
      simp only [Cmd.subcommands_withTables]
      rcases hlookA a l hal with h5 | ⟨h5, _⟩
      · have ha : a ≠ label := by
          rintro rfl
          rw [hlblA] at h5
          cases h5
        rw [hlookS a ha]
        exact hAM a l h5
      · have ha : a ≠ label := by
          rintro rfl
          exact hnd.1 h5
        rw [hlookS a ha]
        exact hfreshS a h5
    · -- AliasToChild
      intro a l hal
      simp only [Cmd.subcommandAliases_withTables] at hal
      simp only [Cmd.subcommands_withTables]
      rcases hlookA a l hal with h5 | ⟨h5, rfl⟩
      · obtain ⟨sub, hsub, hmem⟩ := hAC a l h5
        have hl : l ≠ label := by
          rintro rfl
          rw [hnone] at hsub
          cases hsub
        exact ⟨sub, by rw [hlookS l hl]; exact hsub, hmem⟩
      · exact ⟨child, hlookSl, by rw [hchild]; exact h5⟩
    · -- ChildToAlias
      intro l sub hsub a ha
      simp only [Cmd.subcommands_withTables] at hsub
      simp only [Cmd.subcommandAliases_withTables]
      by_cases hl : l = label
      · subst hl
        rw [hlookSl] at hsub
        obtain rfl := Option.some.inj hsub
        rw [hchild] at ha
        rw [alookup_append_right (hfreshA a ha), alookup_selfmap, if_pos ha]
      · rw [hlookS l hl] at hsub
        have h5 := hCA l sub hsub a ha
        exact alookup_append_left h5 _
    · -- Nodup keys of subcommands
      simp only [Cmd.subcommands_withTables]
      rw [keysOf_append]
      refine nodup_append_of_disjoint hK1 (by simp [keysOf]) ?_
      intro x hx
      have : x = label := by simpa [keysOf] using hx
      subst this
      rw [← alookup_eq_none_iff]
      exact hnone
    · -- Nodup keys of subcommandAliases
      simp only [Cmd.subcommandAliases_withTables]
      rw [keysOf_append, keysOf_selfmap]
      refine nodup_append_of_disjoint hK2 hnd.2 ?_
      intro x hx
      rw [← alookup_eq_none_iff]
      exact hfreshA x hx
    · -- child alias lists stay duplicate-free
      intro l sub hsub
      simp only [Cmd.subcommands_withTables] at hsub
      by_cases hl : l = label
      · subst hl
        rw [hlookSl] at hsub
        obtain rfl := Option.some.inj hsub
        rw [hchild]
        exact hnd.2
      · rw [hlookS l hl] at hsub
        exact hK3 l sub hsub

theorem registerSubcommandAlias_ok_shape {c : Cmd} {al label : String} {c1 : Cmd}
    (h : registerSubcommandAlias c al label = .ok c1) :
    ∃ sub, alookup c.subcommands label = some sub ∧
      c1 = c.withTables
        (ainsert c.subcommands label (sub.withAliases (sub.aliases ++ [al])))
        (ainsert c.subcommandAliases al label) := by
  unfold registerSubcommandAlias at h
  split at h
  · cases h
  · rename_i sub hsub
    split at h
    · cases h
    · injection h with h1
      exact ⟨sub, hsub, h1.symm⟩

theorem invP_registerAlias {c : Cmd} {al label : String} (hI : InvP c)
    (hok : okOp c (.registerAlias al label) = true) :
    InvP (applyOp c (.registerAlias al label)) := by
  have happ : applyOp c (.registerAlias al label) =
      match registerSubcommandAlias c al label with
      | .ok c1 => c1
      | .error _ => c := rfl
  rw [happ]
  cases hreg : registerSubcommandAlias c al label with
  | error e => exact hI
  | ok c1 =>
    obtain ⟨sub, hsub, rfl⟩ := registerSubcommandAlias_ok_shape hreg
    obtain ⟨hAM, hAC, hCA, hK1, hK2, hK3⟩ := hI
    simp only [okOp, Bool.and_eq_true, Option.isNone_iff_eq_none] at hok
    obtain ⟨hfA, hfS⟩ := hok
    have halmem : al ∉ Cmd.aliases sub := by
      intro hmem
      have h5 := hCA label sub hsub al hmem
      rw [hfA] at h5
      cases h5
    have hallbl : al ≠ label := by
      rintro rfl
      rw [hsub] at hfS
      cases hfS
    refine ⟨?_, ?_, ?_, ?_, ?_, ?_⟩
    · -- AtMostOne
      intro a l hal
      simp only [Cmd.subcommandAliases_withTables] at hal
      simp only [Cmd.subcommands_withTables]
      by_cases ha : a = al
      · subst ha
        rw [alookup_ainsert_ne _ _ _ hallbl]
        exact hfS
      · rw [alookup_ainsert_ne _ _ _ ha] at hal
        have h5 := hAM a l hal
        have halabel : a ≠ label := by
          rintro rfl
          rw [hsub] at h5
          cases h5
        rw [alookup_ainsert_ne _ _ _ halabel]
        exact h5
    · -- AliasToChild
      intro a l hal
      simp only [Cmd.subcommandAliases_withTables] at hal
      simp only [Cmd.subcommands_withTables]
      by_cases ha : a = al
      · subst ha
        rw [alookup_ainsert_self] at hal
        obtain rfl := Option.some.inj hal
        refine ⟨sub.withAliases (sub.aliases ++ [a]), alookup_ainsert_self .., ?_⟩
        simp
      · rw [alookup_ainsert_ne _ _ _ ha] at hal
        obtain ⟨sub0, hsub0, hmem0⟩ := hAC a l hal
        by_cases hl : l = label
        · subst hl
          obtain rfl := Option.some.inj (hsub.symm.trans hsub0)
          refine ⟨sub.withAliases (sub.aliases ++ [al]), alookup_ainsert_self .., ?_⟩
          simp [hmem0]
        · exact ⟨sub0, by rw [alookup_ainsert_ne _ _ _ hl]; exact hsub0, hmem0⟩
    · -- ChildToAlias
      intro l s hls a ha
      simp only [Cmd.subcommands_withTables] at hls
      simp only [Cmd.subcommandAliases_withTables]
      by_cases hl : l = label
      · subst hl
        rw [alookup_ainsert_self] at hls
        obtain rfl := Option.some.inj hls
        simp only [Cmd.aliases_withAliases] at ha
        rcases List.mem_append.mp ha with h5 | h5
        · have h6 := hCA l sub hsub a h5
          have ha2 : a ≠ al := by
            rintro rfl
            exact halmem h5
          rw [alookup_ainsert_ne _ _ _ ha2]
          exact h6
        · obtain rfl : a = al := by simpa using h5
          rw [alookup_ainsert_self]
      · rw [alookup_ainsert_ne _ _ _ hl] at hls
        have h5 := hCA l s hls a ha
        have ha2 : a ≠ al := by
          rintro rfl
          rw [hfA] at h5
          cases h5
        rw [alookup_ainsert_ne _ _ _ ha2]
        exact h5
    · -- Nodup keys of subcommands
      simp only [Cmd.subcommands_withTables]
      rw [keysOf_ainsert_of_mem ((alookup_isSome_iff ..).mp (by rw [hsub]; rfl))]
      exact hK1
    · -- Nodup keys of subcommandAliases
      simp only [Cmd.subcommandAliases_withTables]
      rw [ainsert_of_alookup_none hfA, keysOf_append]
      refine nodup_append_of_disjoint hK2 (by simp [keysOf]) ?_
      intro x hx
      obtain rfl : x = al := by simpa [keysOf] using hx
      rw [← alookup_eq_none_iff]
      exact hfA
    · -- child alias lists stay duplicate-free
      intro l s hls
      simp only [Cmd.subcommands_withTables] at hls
      by_cases hl : l = label
      · subst hl
        rw [alookup_ainsert_self] at hls
        obtain rfl := Option.some.inj hls
        simp only [Cmd.aliases_withAliases]
        refine nodup_append_of_disjoint (hK3 l sub hsub) (List.nodup_singleton al) ?_
        intro x hx
        obtain rfl : x = al := by simpa using hx
        exact halmem
      · rw [alookup_ainsert_ne _ _ _ hl] at hls
        exact hK3 l s hls

theorem invP_withTables_self {c : Cmd} (hI : InvP c) :
    InvP (c.withTables c.subcommands c.subcommandAliases) := by
  obtain ⟨hAM, hAC, hCA, hK1, hK2, hK3⟩ := hI
  refine ⟨?_, ?_, ?_, ?_, ?_, ?_⟩ <;>
    simp only [AtMostOne, AliasToChild, ChildToAlias,
      Cmd.subcommands_withTables, Cmd.subcommandAliases_withTables]
  · exact hAM
  · exact hAC
  · exact hCA
  · exact hK1
  · exact hK2
  · exact hK3

theorem invP_unregister {c : Cmd} {label : String} (hI : InvP c)
    (hok : okOp c (.unregister label) = true) :
    InvP (applyOp c (.unregister label)) := by
  obtain ⟨hAM, hAC, hCA, hK1, hK2, hK3⟩ := hI
  have happ : applyOp c (.unregister label) =
      match unregisterSubcommand c label with
      | .ok c1 => c1
      | .error _ => c := rfl
  rw [happ]
  cases hal : alookup c.subcommandAliases label with
  | none =>
    have hun : unregisterSubcommand c label =
        .ok (c.withTables (aremove c.subcommands label) c.subcommandAliases) := by
      unfold unregisterSubcommand
      rw [hal]
    rw [hun]
    simp only [okOp] at hok
    rw [hal] at hok
    cases hsubl : alookup c.subcommands label with
    | none =>
      rw [aremove_of_alookup_none hsubl]
      exact invP_withTables_self ⟨hAM, hAC, hCA, hK1, hK2, hK3⟩
    | some sub =>
      rw [hsubl] at hok
      have hempty : Cmd.aliases sub = [] := by
        simpa [List.isEmpty_iff] using hok
      refine ⟨?_, ?_, ?_, ?_, ?_, ?_⟩
      · intro a l hal2
        simp only [Cmd.subcommandAliases_withTables] at hal2
        simp only [Cmd.subcommands_withTables]
        have ha : a ≠ label := by
          rintro rfl
          rw [hal] at hal2
          cases hal2
        rw [alookup_aremove_ne _ _ ha]
        exact hAM a l hal2
      · intro a l hal2
        simp only [Cmd.subcommandAliases_withTables] at hal2
        simp only [Cmd.subcommands_withTables]
        obtain ⟨sub0, hsub0, hmem0⟩ := hAC a l hal2
        have hl : l ≠ label := by
          rintro rfl
          obtain rfl := Option.some.inj (hsubl.symm.trans hsub0)
          rw [hempty] at hmem0
          cases hmem0
        exact ⟨sub0, by rw [alookup_aremove_ne _ _ hl]; exact hsub0, hmem0⟩
      · intro l s hls a ha
        simp only [Cmd.subcommands_withTables] at hls
        simp only [Cmd.subcommandAliases_withTables]
        have hl : l ≠ label := by
          rintro rfl
          rw [alookup_aremove_self hK1] at hls
          cases hls
        rw [alookup_aremove_ne _ _ hl] at hls
        exact hCA l s hls a ha
      · simp only [Cmd.subcommands_withTables]
        exact nodup_keysOf_aremove _ hK1
      · simp only [Cmd.subcommandAliases_withTables]
        exact hK2
      · intro l s hls
        simp only [Cmd.subcommands_withTables] at hls
        have hl : l ≠ label := by
          rintro rfl
          rw [alookup_aremove_self hK1] at hls
          cases hls
        rw [alookup_aremove_ne _ _ hl] at hls
        exact hK3 l s hls
  | some original =>
    by_cases horig : strEmpty original = true
    · -- falsy alias value: the else branch clears `subcommands[label]`,
      -- which is a no-op because `label` is an alias key, not a child key
      have hun : unregisterSubcommand c label =
          .ok (c.withTables (aremove c.subcommands label) c.subcommandAliases) := by
        unfold unregisterSubcommand
        simp only [hal]
        rw [if_pos horig]
      rw [hun]
      rw [aremove_of_alookup_none (hAM label original hal)]
      exact invP_withTables_self ⟨hAM, hAC, hCA, hK1, hK2, hK3⟩
    · obtain ⟨sub, hsub, hmem⟩ := hAC label original hal
      have hun : unregisterSubcommand c label =
          .ok (c.withTables
            (ainsert c.subcommands original
              (sub.withAliases (spliceRemove (Cmd.aliases sub) label)))
            (aremove c.subcommandAliases label)) := by
        unfold unregisterSubcommand
        simp only [hal]
        rw [if_neg horig]
        simp only [hsub]
      rw [hun]
      have hndsub : (Cmd.aliases sub).Nodup := hK3 original sub hsub
      rw [spliceRemove_of_mem hmem]
      have hnotmem : label ∉ removeFirst (Cmd.aliases sub) label :=
        not_mem_removeFirst_self hndsub
      refine ⟨?_, ?_, ?_, ?_, ?_, ?_⟩
      · intro a l hal2
        simp only [Cmd.subcommandAliases_withTables] at hal2
        simp only [Cmd.subcommands_withTables]
        have ha : a ≠ label := by
          rintro rfl
          rw [alookup_aremove_self hK2] at hal2
          cases hal2
        rw [alookup_aremove_ne _ _ ha] at hal2
        have h5 := hAM a l hal2
        have hao : a ≠ original := by
          rintro rfl
          rw [hsub] at h5
          cases h5
        rw [alookup_ainsert_ne _ _ _ hao]
        exact h5
      · intro a l hal2
        simp only [Cmd.subcommandAliases_withTables] at hal2
        simp only [Cmd.subcommands_withTables]
        have ha : a ≠ label := by
          rintro rfl
          rw [alookup_aremove_self hK2] at hal2
          cases hal2
        rw [alookup_aremove_ne _ _ ha] at hal2
        obtain ⟨sub0, hsub0, hmem0⟩ := hAC a l hal2
        by_cases hl : l = original
        · subst hl
          obtain rfl := Option.some.inj (hsub.symm.trans hsub0)
          refine ⟨sub.withAliases (removeFirst (Cmd.aliases sub) label),
            alookup_ainsert_self .., ?_⟩
          simp only [Cmd.aliases_withAliases]
          exact mem_removeFirst_of_ne ha hmem0
        · exact ⟨sub0, by rw [alookup_ainsert_ne _ _ _ hl]; exact hsub0, hmem0⟩
      · intro l s hls a ha
        simp only [Cmd.subcommands_withTables] at hls
        simp only [Cmd.subcommandAliases_withTables]
        by_cases hl : l = original
        · subst hl
          rw [alookup_ainsert_self] at hls
          obtain rfl := Option.some.inj hls
          simp only [Cmd.aliases_withAliases] at ha
          have ha2 : a ≠ label := by
            rintro rfl
            exact hnotmem ha
          rw [alookup_aremove_ne _ _ ha2]
          exact hCA l sub hsub a (mem_removeFirst ha)
        · rw [alookup_ainsert_ne _ _ _ hl] at hls
          have h5 := hCA l s hls a ha
          have ha2 : a ≠ label := by
            rintro rfl
            rw [hal] at h5
            exact hl (Option.some.inj h5).symm
          rw [alookup_aremove_ne _ _ ha2]
          exact h5
      · simp only [Cmd.subcommands_withTables]
        rw [keysOf_ainsert_of_mem ((alookup_isSome_iff ..).mp (by rw [hsub]; rfl))]
        exact hK1
      · simp only [Cmd.subcommandAliases_withTables]
        exact nodup_keysOf_aremove _ hK2
      · intro l s hls
        simp only [Cmd.subcommands_withTables] at hls
        by_cases hl : l = original
        · subst hl
          rw [alookup_ainsert_self] at hls
          obtain rfl := Option.some.inj hls
          simp only [Cmd.aliases_withAliases]
          exact nodup_removeFirst _ hndsub
        · rw [alookup_ainsert_ne _ _ _ hl] at hls
          exact hK3 l s hls

/-- Any single operation satisfying its freshness side conditions
preserves the invariant. -/
theorem invP_applyOp {c : Cmd} {op : Op} (hI : InvP c)
    (hok : okOp c op = true) : InvP (applyOp c op) := by
  cases op with
  | register label g opts => exact invP_register hI hok
  | registerAlias al label => exact invP_registerAlias hI hok
  | unregister label => exact invP_unregister hI hok

theorem invP_runOps {c : Cmd} {ops : List Op} (hI : InvP c)
    (hok : okSeq c ops = true) : InvP (runOps c ops) := by
  induction ops generalizing c with
  | nil => exact hI
  | cons op rest ih =>
    simp only [okSeq, Bool.and_eq_true] at hok
    exact ih (invP_applyOp hI hok.1) hok.2

theorem unregisterSubcommand_ok_subentries {c : Cmd} {label : String} {c1 : Cmd}
    (h : unregisterSubcommand c label = .ok c1) :
    ∀ p ∈ c1.subcommands, p ∈ c.subcommands ∨ ∃ v, (p.1, v) ∈ c.subcommands := by
  unfold unregisterSubcommand at h
  split at h
  · rename_i original hal
    split at h
    · injection h with h1
      subst h1
      intro p hp
      simp only [Cmd.subcommands_withTables] at hp
      exact Or.inl (mem_aremove hp)
    · split at h
      · cases h
      · rename_i sub hsub
        injection h with h1
        subst h1
        intro p hp
        simp only [Cmd.subcommands_withTables] at hp
        rcases mem_ainsert hp with h2 | h2
        · subst h2
          exact Or.inr ⟨sub, mem_of_alookup_eq_some hsub⟩
        · exact Or.inl h2
  · injection h with h1
    subst h1
    intro p hp
    simp only [Cmd.subcommands_withTables] at hp
    exact Or.inl (mem_aremove hp)

/-- Every operation keeps child labels space-free: unconditionally, with
no side conditions, so space-free labels hold on every reachable tree. -/
theorem labelsOk_applyOp {c : Cmd} (op : Op) (h : labelsOk c = true) :
    labelsOk (applyOp c op) = true := by
  simp only [labelsOk, List.all_eq_true] at h ⊢
  cases op with
  | register label g opts =>
    have happ : applyOp c (.register label g opts) =
        match registerSubcommand c label g opts with
        | .ok c1 => c1
        | .error _ => c := rfl
    rw [happ]
    cases hreg : registerSubcommand c label g opts with
    | error e => exact h
    | ok c1 =>
      obtain ⟨hspace, _, child, _, rfl⟩ := registerSubcommand_ok_shape hreg
      intro p hp
      simp only [Cmd.subcommands_withTables] at hp
      rcases mem_ainsert hp with h2 | h2
      · subst h2
        simp [hspace]
      · exact h p h2
  | registerAlias al label =>
    have happ : applyOp c (.registerAlias al label) =
        match registerSubcommandAlias c al label with
        | .ok c1 => c1
        | .error _ => c := rfl
    rw [happ]
    cases hreg : registerSubcommandAlias c al label with
    | error e => exact h
    | ok c1 =>
      obtain ⟨sub, hsub, rfl⟩ := registerSubcommandAlias_ok_shape hreg
      intro p hp
      simp only [Cmd.subcommands_withTables] at hp
      rcases mem_ainsert hp with h2 | h2
      · subst h2
        exact h (label, sub) (mem_of_alookup_eq_some hsub)
      · exact h p h2
  | unregister label =>
    have happ : applyOp c (.unregister label) =
        match unregisterSubcommand c label with
        | .ok c1 => c1
        | .error _ => c := rfl
    rw [happ]
    cases hreg : unregisterSubcommand c label with
    | error e => exact h
    | ok c1 =>
      intro p hp
      rcases unregisterSubcommand_ok_subentries hreg p hp with h2 | ⟨v, h2⟩
      · exact h p h2
      · exact h (p.1, v) h2

theorem labelsOk_runOps {c : Cmd} (ops : List Op) (h : labelsOk c = true) :
    labelsOk (runOps c ops) = true := by
  induction ops generalizing c with
  | nil => exact h
  | cons op rest ih => exact ih (labelsOk_applyOp op h)

/-! ### Concrete fixtures used by the claim theorems -/

/-- A guild in which members have no roles. -/
def guild0 : Guild := ⟨fun _ => [], fun _ => ""⟩

/-- A group-context message from `u1` with no capability flags. -/
def msg0 : Msg := ⟨⟨"u1"⟩, ⟨some guild0, fun _ => []⟩⟩

/-- A group-context message from `u1` whose computed flags say
`manageMessages: false` (plus an unrelated flag). -/
def msgNoMM : Msg :=
  ⟨⟨"u1"⟩, ⟨some guild0,
    fun _ => [("manageMessages", false), ("administrator", true)]⟩⟩

/-- A group-context message from `u1` whose computed flags say
`manageMessages: true` plus the extra flag `administrator: true`. -/
def msgMM : Msg :=
  ⟨⟨"u1"⟩, ⟨some guild0,
    fun _ => [("manageMessages", true), ("administrator", true)]⟩⟩

/-- A direct-message (guild-less) context for `u1`. -/
def msgDM : Msg := ⟨⟨"u1"⟩, ⟨none, fun _ => []⟩⟩

/-- A fresh root node with a fixed-text generator and no options. -/
def root0 : Cmd :=
  (mkCommand ("main") (.str ("hello")) emptyOptions).toOption.getD defaultCmd

/-- Options carrying only the capability rule `{manageMessages: true}`. -/
def optsMM : Options :=
  ⟨none, none, none, none, false,
    some ⟨none, some [("manageMessages", true)], none, none⟩, false, false⟩

/-- A node whose requirements are exactly `{manageMessages: true}`. -/
def cmdC1 : Cmd :=
  (mkCommand ("test") (.str ("ok")) optsMM).toOption.getD defaultCmd

/-- Options restricting to the single actor id `u1`. -/
def optsOnlyU1 : Options :=
  ⟨none, none, none, none, false,
    some ⟨some ["u1"], none, none, none⟩, false, false⟩

/-- A node allowing only actor `u1`. -/
def cmdC4 : Cmd :=
  (mkCommand ("dmtest") (.str ("dm")) optsOnlyU1).toOption.getD defaultCmd

/-- Options registering the alias `x`. -/
def optsAliasX : Options :=
  ⟨none, none, none, some ["x"], false, none, false, false⟩

/-- Options registering the alias `b`. -/
def optsAliasB : Options :=
  ⟨none, none, none, some ["b"], false, none, false, false⟩

/-- Root after a successful `registerSubcommand("a", …, {aliases: ["x"]})`. -/
def c3state1 : Cmd :=
  (registerSubcommand root0 ("a") (.str ("ra")) (some optsAliasX)).toOption.getD
    defaultCmd

/-- `c3state1` after a successful
`registerSubcommand("b", …, {aliases: ["x"]})`. -/
def c3state2 : Cmd :=
  (registerSubcommand c3state1 ("b") (.str ("rb")) (some optsAliasX)).toOption.getD
    defaultCmd

/-- A well-behaved operation sequence: register `ban` with alias `b`,
add alias `x`, remove both aliases, then remove the child. -/
def c3ops : List Op :=
  [.register ("ban") (.str ("banned")) (some optsAliasB),
   .registerAlias ("x") ("ban"),
   .unregister ("x"),
   .unregister ("b"),
   .unregister ("ban")]

/-- Root with one child `ban`. -/
def rootC5 : Cmd :=
  (registerSubcommand root0 ("ban") (.str ("banned")) none).toOption.getD defaultCmd

/-- Case-insensitive child options. -/
def optsCI : Options := ⟨none, none, none, none, true, none, false, false⟩

/-- Root with a mixed-case child `Role` registered case-insensitive. -/
def rootC6 : Cmd :=
  (registerSubcommand root0 ("Role") (.str ("role response")) (some optsCI)).toOption.getD
    defaultCmd

/-- Root with a lowercase child `role` registered case-insensitive. -/
def rootC6lc : Cmd :=
  (registerSubcommand root0 ("role") (.str ("role response")) (some optsCI)).toOption.getD
    defaultCmd

/-- The `role` child of `rootC6lc`. -/
def subC6 : Cmd := (alookup (Cmd.subcommands rootC6lc) ("role")).getD defaultCmd

/-- Options restricting to the single actor id `u2`. -/
def optsOnlyU2 : Options :=
  ⟨none, none, none, none, false,
    some ⟨some ["u2"], none, none, none⟩, false, false⟩

/-- Root (no requirements) with a child `sub` that only `u2` may use. -/
def rootC9 : Cmd :=
  (registerSubcommand root0 ("sub") (.str ("sub response")) (some optsOnlyU2)).toOption.getD
    defaultCmd

/-- The `sub` child of `rootC9`. -/
def subC9 : Cmd := (alookup (Cmd.subcommands rootC9) ("sub")).getD defaultCmd

/-- `rootC5` after a successful `registerSubcommandAlias("b", "ban")`. -/
def rootC10 : Cmd :=
  (registerSubcommandAlias rootC5 ("b") ("ban")).toOption.getD defaultCmd

/-- Root with a child registered under the empty label — accepted,
since `""` contains no space. -/
def rootEmptyLbl : Cmd :=
  (registerSubcommand root0 ("") (.str ("empty resp")) none).toOption.getD defaultCmd

/-- `rootEmptyLbl` after a successful `registerSubcommandAlias("b2", "")`. -/
def rootC10e : Cmd :=
  (registerSubcommandAlias rootEmptyLbl ("b2") ("")).toOption.getD defaultCmd

/-! ### The claims -/

/-- C1: the spec asserts that `process([], actor, ctx)` on a node whose
only requirement is the capability rule `{manageMessages: true}`
returns a response iff the actor's computed `manageMessages` flag is
exactly `true`.  The code contradicts this (and its own doc comment,
source lines 24-30): when the capability pair does not match and both
role lists are empty, `permissionCheck` falls through to the final
`return true` (line 122), so an actor whose flag is `false` still gets
the response.  The matching direction does hold, extra flags
notwithstanding (last conjunct). -/
theorem C1_capability_mismatch_still_responds :
    alookup ((Msg.channel msgNoMM).permissionsOf ("u1")) ("manageMessages")
      = some false ∧
    permissionCheck cmdC1 msgNoMM = true ∧
    process cmdC1 [] msgNoMM = some ("ok") ∧
    process cmdC1 [] msgMM = some ("ok") := by
  exact ⟨rfl, rfl, rfl, rfl⟩

/-- C2: the spec asserts a node built from a non-empty array generator
(a WeightedSet) is constructed successfully and draws a member per
call.  The constructor instead throws for every non-empty array: its
map callback tests `typeof generator` — the whole array — instead of
`typeof item`, so index 0 already takes the throw branch. -/
theorem C2_weighted_set_constructor_throws (label : String) (x : GenVal)
    (items : List GenVal) (options : Options) :
    mkCommand label (.arr (x :: items)) options =
      .error ("Invalid command response generator (index 0)") := rfl

/-- C3 counterexample: `registerSubcommand` performs no collision check
on alias options, so a second child registered with an already-used
alias hijacks the table entry while the first child still lists the
alias — the agreement half of the invariant fails after two successful
registrations. -/
theorem C3_counterexample :
    claimInvB root0 = true ∧
    (registerSubcommand root0 ("a") (.str ("ra")) (some optsAliasX)).toOption.isSome
      = true ∧
    (registerSubcommand c3state1 ("b") (.str ("rb")) (some optsAliasX)).toOption.isSome
      = true ∧
    alookup (Cmd.subcommandAliases c3state2) ("x") = some ("b") ∧
    (∃ sub, alookup (Cmd.subcommands c3state2) ("a") = some sub ∧
      Cmd.aliases sub = ["x"]) ∧
    claimInvB c3state2 = false := by
  exact ⟨rfl, rfl, rfl, rfl, ⟨_, rfl, rfl⟩, rfl⟩

/-- C3 (amended): the invariant — together with the key-uniqueness
bookkeeping it rests on — is preserved by every sequence of
registration operations whose steps satisfy the freshness conditions
`okOp`: a registered label and its aliases are new in both tables and
mutually distinct, a new alias is new in both tables, and a canonical
child is only unregistered once it has no aliases left. -/
theorem C3_invariant_preserved (c : Cmd) (ops : List Op)
    (h : invB c = true) (hok : okSeq c ops = true) :
    invB (runOps c ops) = true :=
  (invB_iff _).mpr (invP_runOps ((invB_iff _).mp h) hok)

theorem C3_invariant_preserved_witness :
    invB root0 = true ∧ okSeq root0 c3ops = true ∧
    invB (runOps root0 c3ops) = true :=
  ⟨by decide, by decide, C3_invariant_preserved root0 c3ops (by decide) (by decide)⟩

/-- C4: in a direct (guild-less) context `permissionCheck` permits iff
`serverOnly` is false and the actor allow-list is empty; in particular
an actor on a non-empty allow-list is still denied there. -/
theorem C4_direct_context (c : Cmd) (msg : Msg)
    (h : msg.channel.guild = none) :
    permissionCheck c msg = true ↔
      (c.serverOnly = false ∧ c.requirements.userIDs = []) := by
  unfold permissionCheck
  rw [h]
  cases hu : c.requirements.userIDs with
  | nil => simp
  | cons u us =>
    by_cases hmem : (u :: us).contains (Msg.author msg).id = true
    · simp [hmem]
    · simp [hmem]

theorem C4_direct_context_witness :
    permissionCheck cmdC4 msgDM = false ∧
    (permissionCheck cmdC4 msgDM = true ↔
      (Cmd.serverOnly cmdC4 = false ∧ (Cmd.requirements cmdC4).userIDs = [])) :=
  ⟨rfl, C4_direct_context cmdC4 msgDM rfl⟩

/-- C5: when the first token resolves to no child — no alias entry, no
exact label, no honored case-insensitive match — `process` runs the
current node's own generator on the full token list (permission
permitting) instead of failing. -/
theorem C5_unmatched_token_runs_own_generator (c : Cmd) (a0 : String)
    (rest : List String) (msg : Msg)
    (hp : permissionCheck c msg = true)
    (h : resolveChild c a0 = none) :
    process c (a0 :: rest) msg = c.execute msg (a0 :: rest) := by
  simp [process, hp, h]

theorem C5_unmatched_token_witness :
    process rootC5 ["kick"] msg0 = Cmd.execute rootC5 msg0 ["kick"] :=
  C5_unmatched_token_runs_own_generator rootC5 ("kick") [] msg0 rfl rfl

/-- C6 counterexample: the child is registered under the mixed-case
label `Role` with `caseInsensitive` set, yet the token `ROLE` does not
resolve to it — the code compares the lowercased token against the
stored key, so a non-lowercase registered label never matches any
differently-cased token; the root's own generator answers instead. -/
theorem C6_counterexample :
    Cmd.caseInsensitive ((alookup (Cmd.subcommands rootC6) ("Role")).getD defaultCmd)
      = true ∧
    process rootC6 ["Role"] msg0 = some ("role response") ∧
    process rootC6 ["ROLE"] msg0 = some ("hello") ∧
    process rootC6 ["ROLE"] msg0 ≠ process rootC6 ["Role"] msg0 := by
  refine ⟨rfl, rfl, rfl, by decide⟩

/-- C6 (amended): the case-insensitive lookup matches exactly when the
lowercased token equals the stored label, so labels registered in
lowercase are reachable under any casing of the token, but not every
registered label is: with no alias entry and no exact match, a child
stored under `lowerStr tok` with the flag set is resolved and `process`
delegates to it. -/
theorem C6_case_insensitive_lowercase_label (c sub : Cmd) (tok : String)
    (rest : List String) (msg : Msg)
    (h0 : alookup c.subcommandAliases tok = none)
    (h1 : alookup c.subcommands tok = none)
    (h2 : alookup c.subcommands (lowerStr tok) = some sub)
    (h3 : sub.caseInsensitive = true)
    (hp : permissionCheck c msg = true) :
    process c (tok :: rest) msg = process sub rest msg := by
  have hres : resolveChild c tok = some sub := by
    unfold resolveChild
    simp [jsOrStr, h0, h1, h2, h3]
  simp [process, hp, hres]

theorem C6_case_insensitive_witness :
    process rootC6lc ["ROLE"] msg0 = process subC6 [] msg0 :=
  C6_case_insensitive_lowercase_label rootC6lc subC6 ("ROLE") [] msg0
    rfl rfl rfl rfl rfl

/-- C7 counterexample: the source checks `label.includes(" ")` only, so
a label containing a tab — whitespace, but not a space — is accepted
and a child is registered under it. -/
theorem C7_counterexample :
    (registerSubcommand root0 ("a\tb") (.str ("x")) none).toOption.isSome = true ∧
    (alookup (Cmd.subcommands
        ((registerSubcommand root0 ("a\tb") (.str ("x")) none).toOption.getD defaultCmd))
      ("a\tb")).isSome = true := by
  exact ⟨rfl, rfl⟩

/-- C7 (amended): `registerSubcommand` fails with the invalid-label
error for every label containing a space character (U+0020), without
registering anything; whitespace other than spaces is not rejected. -/
theorem C7_space_label_rejected (c : Cmd) (label : String) (g : GenVal)
    (opts : Option Options) (h : hasSpace label = true) :
    registerSubcommand c label g opts =
      .error ("Subcommand label may not have spaces") := by
  unfold registerSubcommand
  rw [if_pos h]

theorem C7_space_label_rejected_witness :
    registerSubcommand root0 ("a b") (.str ("x")) none =
      .error ("Subcommand label may not have spaces") :=
  C7_space_label_rejected root0 ("a b") (.str ("x")) none rfl

/-- C8: registering a label already present in `subcommands` fails with
the duplicate error; both throws precede any table write, so the tree
is untouched by the failed attempt.  The space-free hypothesis on
stored labels holds on every reachable tree (`labelsOk_runOps`), and is
needed because a space-bearing duplicate would hit the space check
first. -/
theorem C8_duplicate_label_rejected (c : Cmd) (label : String) (g : GenVal)
    (opts : Option Options) (hl : labelsOk c = true)
    (h : (alookup c.subcommands label).isSome = true) :
    registerSubcommand c label g opts =
      .error ("You have already registered a subcommand for " ++ label) := by
  have hspace : hasSpace label = false := by
    rcases hs : alookup c.subcommands label with _ | sub
    · rw [hs] at h
      cases h
    · simp only [labelsOk, List.all_eq_true] at hl
      have h5 := hl (label, sub) (mem_of_alookup_eq_some hs)
      simpa using h5
  unfold registerSubcommand
  rw [if_neg (by simp [hspace]), if_pos h]

theorem C8_duplicate_label_rejected_witness :
    registerSubcommand rootC5 ("ban") (.str ("y")) none =
      .error ("You have already registered a subcommand for " ++ "ban") :=
  C8_duplicate_label_rejected rootC5 ("ban") (.str ("y")) none
    (by decide) (by decide)

/-- C9: `process` evaluates `permissionCheck` afresh at every node it
walks; a denial at the root or at any node along the resolution path
makes the whole dispatch return nothing, regardless of what deeper
nodes would permit. -/
theorem C9_deny_on_path_returns_none (c : Cmd) (args : List String)
    (msg : Msg)
    (h : ∃ n ∈ pathNodes c args, permissionCheck n msg = false) :
    process c args msg = none := by
  induction args generalizing c with
  | nil =>
    obtain ⟨n, hn, hd⟩ := h
    simp only [pathNodes, List.mem_singleton] at hn
    subst hn
    simp [process, hd]
  | cons a0 rest ih =>
    obtain ⟨n, hn, hd⟩ := h
    by_cases hc : permissionCheck c msg = false
    · simp [process, hc]
    · cases hres : resolveChild c a0 with
      | none =>
        simp only [pathNodes, hres, List.mem_singleton] at hn
        subst hn
        exact absurd hd hc
      | some sub =>
        simp only [pathNodes, hres, List.mem_cons] at hn
        have hpc : permissionCheck c msg = true := by
          cases hcc : permissionCheck c msg
          · exact absurd hcc hc
          · rfl
        rcases hn with rfl | hn
        · exact absurd hd hc
        · simp only [process, hpc, hres]
          rw [if_neg (by simp)]
          exact ih sub ⟨n, hn, hd⟩

theorem C9_deny_on_path_witness : process rootC9 ["sub"] msg0 = none :=
  C9_deny_on_path_returns_none rootC9 ["sub"] msg0
    ⟨subC9, by
      show subC9 ∈ [rootC9, subC9]
      simp, rfl⟩

/-- C10 counterexample: the canonical label may be the empty string —
`""` contains no space, so `registerSubcommand("")` succeeds and the
child can carry an alias.  After unregistering that child the alias
entry dangles as usual, but the follow-up unregister of the alias reads
`original = ""`, which is falsy, so `if(original)` takes the else
branch (source line 211) and completes without the claimed TypeError:
the unqualified claim is false at this input. -/
theorem C10_counterexample :
    (alookup (Cmd.subcommands rootC10e) ("")).isSome = true ∧
    alookup (Cmd.subcommandAliases rootC10e) ("b2") = some ("") ∧
    (∃ c1, unregisterSubcommand rootC10e ("") = .ok c1 ∧
      alookup (Cmd.subcommandAliases c1) ("b2") = some ("") ∧
      alookup (Cmd.subcommands c1) ("") = none ∧
      ∃ c2, unregisterSubcommand c1 ("b2") = .ok c2) := by
  exact ⟨rfl, rfl, ⟨_, rfl, rfl, rfl, ⟨_, rfl⟩⟩⟩

/-- C10 (amended): for a canonical child under a non-empty label — the
truthy case of `if(original)` — unregistering it leaves its alias
entries dangling in `subcommandAliases`, and a later unregister of such
an alias crashes on the property access
`this.subcommands[original].aliases` instead of being a no-op.  (When
the label is the empty string the falsy check routes the call to the
harmless else branch instead; see the counterexample.) -/
theorem C10_dangling_alias_crash (c : Cmd) (L A : String)
    (hL : strEmpty L = false)
    (hnd : (keysOf (Cmd.subcommands c)).Nodup)
    (h1 : alookup c.subcommandAliases L = none)
    (_h2 : (alookup c.subcommands L).isSome = true)
    (h3 : alookup c.subcommandAliases A = some L) :
    ∃ c1, unregisterSubcommand c L = .ok c1 ∧
      alookup (Cmd.subcommandAliases c1) A = some L ∧
      alookup (Cmd.subcommands c1) L = none ∧
      unregisterSubcommand c1 A =
        .error ("TypeError: cannot read property aliases of undefined") := by
  refine ⟨c.withTables (aremove c.subcommands L) c.subcommandAliases,
    ?_, ?_, ?_, ?_⟩
  · unfold unregisterSubcommand
    simp only [h1]
  · simpa using h3
  · simp only [Cmd.subcommands_withTables]
    exact alookup_aremove_self hnd
  · unfold unregisterSubcommand
    simp only [Cmd.subcommandAliases_withTables, Cmd.subcommands_withTables, h3]
    rw [if_neg (by simp [hL])]
    rw [alookup_aremove_self hnd]

theorem C10_dangling_alias_crash_witness :
    ∃ c1, unregisterSubcommand rootC10 ("ban") = .ok c1 ∧
      alookup (Cmd.subcommandAliases c1) ("b") = some ("ban") ∧
      alookup (Cmd.subcommands c1) ("ban") = none ∧
      unregisterSubcommand c1 ("b") =
        .error ("TypeError: cannot read property aliases of undefined") :=
  C10_dangling_alias_crash rootC10 ("ban") ("b")
    (by decide) (by decide) (by decide) (by decide) (by decide)

end FriendlyBot
